import Mathlib

/-!
Verification of the Conversational Retrieval Context Engine of the
`rag_urz_ollama` repository against its natural-language specification.

The repository snapshot available here contains the React frontend
(`frontend/src/components/Home.tsx`, `ResponseDisplay.tsx`,
`SourceSidebar.tsx`, …); the backend engine (History Store, Query
Reformulator, Candidate Retriever, Reranker Adapter, Citation Gate,
Context Assembler) is referenced by the repository README but its code is
not part of the snapshot.  Definitions for those components are therefore
modelled from the spec (each such definition says so in its doc comment);
definitions for the frontend behaviour are translated from the TSX source.

Modelling conventions:
* texts handled by the engine are represented as lists of normalized
  tokens (`List String`), since every spec-level operation on them
  (overlap, hint extraction, pronoun tests) is defined on token sets;
* similarity / relevance scores are rationals (`ℚ`), standing in for the
  floating-point scores of the real system;
* fallible subsystems are represented with `Option` / `Except`.
-/

namespace RagUrz

/-! ## Basic engine data model (modelled from the spec, §3) -/

/-- Modelled from the spec: the two working languages plus `unknown`
(§3 `Turn.language : A|B|unknown`). -/
inductive Lang where
  | langA
  | langB
  | unknownLang
deriving DecidableEq, Repr

/-- Modelled from the spec: role of a turn (§3). -/
inductive Role where
  | user
  | assistant
deriving DecidableEq, Repr

/-- Modelled from the spec: one turn of a session (§3).  The text is kept
as a list of normalized tokens; the timestamp is irrelevant to every
claim and omitted. -/
structure Turn where
  role : Role
  text : List String
  language : Lang
deriving DecidableEq, Repr

/-! ## History Store (modelled from the spec, §3 and §9)

"an ordered sequence of Turns, capped at N most recent (default 5);
oldest turns are evicted FIFO when the cap is exceeded". The store keeps
turns oldest first. -/

/-- Modelled from the spec: append a turn to a session history bounded by
`cap`, evicting oldest turns FIFO when the cap would be exceeded. -/
def appendTurn (cap : Nat) (h : List Turn) (t : Turn) : List Turn :=
  let h2 := h ++ [t]
  if h2.length ≤ cap then h2 else h2.drop (h2.length - cap)

/-! ## Token overlap and the Query Reformulator (modelled from the spec, §4.2) -/

/-- Modelled from the spec: Jaccard-like token-overlap ratio of two
normalized token lists (§4.2 step 3).  The ratio of distinct shared
tokens over distinct tokens overall; two empty texts overlap fully. -/
def tokenOverlap (xs ys : List String) : ℚ :=
  let xd := xs.dedup
  let yd := ys.dedup
  let inter := xd.filter (fun t => decide (t ∈ yd))
  let union := (xd ++ yd).dedup
  if union.length = 0 then 1 else (inter.length : ℚ) / (union.length : ℚ)

/-- Modelled from the spec: tunable constants and closed word lists of the
Query Reformulator (§4.2, §9 "treat them as configuration"). -/
structure ReformConfig where
  pronounMaxTokens : Nat
  pronounWords : Lang → List String
  stopWords : List String
  hintTopK : Nat
  topicSwitchThreshold : ℚ

/-- Modelled from the spec: a turn is pronoun-like when it is short
(below the token-count threshold) and all its tokens belong to the
language-specific closed pronoun/anaphora/filler list (§4.2 step 1). -/
def isPronounLike (cfg : ReformConfig) (lang : Lang) (tokens : List String) : Bool :=
  decide (tokens.length < cfg.pronounMaxTokens) &&
    tokens.all (fun t => (cfg.pronounWords lang).contains t)

/-- Modelled from the spec: prior user turns in the current language,
most recent first (§4.2 step 2).  The history is stored oldest first. -/
def historyPool (history : List Turn) (lang : Lang) : List Turn :=
  (history.filter (fun t =>
    decide (t.role = Role.user) && decide (t.language = lang))).reverse

/-- Modelled from the spec: compact topic hints — the top-K salient
noun-like tokens of the most recent pooled user turn, i.e. its distinct
tokens that are neither stop words nor pronouns (§4.2 step 4). -/
def extractHints (cfg : ReformConfig) (lang : Lang) (pool : List Turn) : List String :=
  match pool with
  | [] => []
  | prev :: _ =>
      (prev.text.dedup.filter (fun t =>
        !(cfg.stopWords.contains t) &&
          !((cfg.pronounWords lang).contains t))).take cfg.hintTopK

/-- Modelled from the spec: the per-turn reformulation record (§3). -/
structure ReformulatedQuery where
  text : List String
  usedHistory : Bool
  historyHintTerms : List String
  resetApplied : Bool
deriving DecidableEq, Repr

/-- Modelled from the spec: the Query Reformulator (§4.2).  Decides
topic-switch reset from the overlap with the last same-language user
turn (strictly below the threshold switches; equality does not), then
appends history hints to a pronoun-like follow-up when history is
available and no reset applied. -/
def reformulate (cfg : ReformConfig) (history : List Turn) (lang : Lang)
    (current : List String) : ReformulatedQuery :=
  let pool0 := historyPool history lang
  let reset :=
    match pool0.head? with
    | none => false
    | some prev => decide (tokenOverlap current prev.text < cfg.topicSwitchThreshold)
  let pool := if reset then [] else pool0
  if isPronounLike cfg lang current && !pool.isEmpty && !reset then
    let hints := extractHints cfg lang pool
    ⟨current ++ hints, true, hints, reset⟩
  else
    ⟨current, false, [], reset⟩

/-! ## Candidate Retriever (modelled from the spec, §4.3 and §6) -/

/-- Modelled from the spec: one result row of a sub-retriever
(§6 `search -> [(url, text, score)]`). -/
structure Retrieved where
  url : String
  text : List String
  score : ℚ
deriving DecidableEq, Repr

/-- Modelled from the spec: a merged candidate passage (§3); a score is
`none` when the corresponding backend produced no entry for the url —
"unset", deliberately distinct from zero. -/
structure CandidatePassage where
  url : String
  text : List String
  denseScore : Option ℚ
  lexicalScore : Option ℚ
deriving DecidableEq, Repr

/-- First element of maximal key, `none` on the empty list. -/
def argmaxBy {α : Type} (key : α → ℚ) : List α → Option α
  | [] => none
  | a :: as =>
    match argmaxBy key as with
    | none => some a
    | some b => if key a < key b then some b else some a

/-- Modelled from the spec: the surviving merged candidate for url `u` —
the highest-`denseScore` dense entry for `u` enriched with the best
lexical score, a one-sided entry leaving the other score unset, or
nothing when neither backend returned `u` (§4.3). -/
def mergeAt (u : String) (dense lex : List Retrieved) : Option CandidatePassage :=
  match argmaxBy (fun r => r.score) (dense.filter (fun r => r.url == u)),
      argmaxBy (fun r => r.score) (lex.filter (fun r => r.url == u)) with
  | some d, some l => some ⟨u, d.text, some d.score, some l.score⟩
  | some d, none => some ⟨u, d.text, some d.score, none⟩
  | none, some l => some ⟨u, l.text, none, some l.score⟩
  | none, none => none

/-- Modelled from the spec: merge the two sub-retriever result lists,
deduplicating by `url` (§4.3). -/
def mergeCandidates (dense lex : List Retrieved) : List CandidatePassage :=
  (((dense ++ lex).map (fun r => r.url)).dedup).filterMap
    (fun u => mergeAt u dense lex)

/-! ## Full retrieval with graceful degradation (modelled from the spec,
§4.3 and §7) -/

/-- Modelled from the spec: the fatal retrieval error of the taxonomy
(§7): both retrieval backends failed. -/
inductive RetrievalError where
  | RetrievalUnavailable
deriving DecidableEq, Repr

/-- Modelled from the spec: `retrieve` combines the two sub-retriever
results (§4.3, §9 result-type merge): both failing is fatal
(`RetrievalUnavailable`); one failing degrades to the other backend's
results; otherwise the merged deduplicated list is returned. -/
def retrieve (denseRes lexRes : Except String (List Retrieved)) :
    Except RetrievalError (List CandidatePassage) :=
  match denseRes, lexRes with
  | Except.error _, Except.error _ => Except.error RetrievalError.RetrievalUnavailable
  | Except.error _, Except.ok ls => Except.ok (mergeCandidates [] ls)
  | Except.ok ds, Except.error _ => Except.ok (mergeCandidates ds [])
  | Except.ok ds, Except.ok ls => Except.ok (mergeCandidates ds ls)

/-! ## Reranker Adapter (modelled from the spec, §4.4) -/

/-- Dense-score sort key; an unset dense score sorts below every present
score. -/
def denseKey (c : CandidatePassage) : WithBot ℚ :=
  match c.denseScore with
  | none => ⊥
  | some q => (q : WithBot ℚ)

/-- "`a` before `b`" order of the dense-score fallback: descending
`denseScore`. -/
def denseGE (a b : CandidatePassage) : Prop := denseKey b ≤ denseKey a

instance : DecidableRel denseGE := fun a b =>
  inferInstanceAs (Decidable (denseKey b ≤ denseKey a))

instance : IsTotal CandidatePassage denseGE :=
  ⟨fun a b => le_total (denseKey b) (denseKey a)⟩

instance : IsTrans CandidatePassage denseGE :=
  ⟨fun _ _ _ hab hbc => le_trans hbc hab⟩

/-- "`a` before `b`" order of the reranked path: descending cross-encoder
score of (query, passage text). -/
def rerankGE (f : List String → List String → ℚ) (query : List String)
    (a b : CandidatePassage) : Prop := f query b.text ≤ f query a.text

instance (f : List String → List String → ℚ) (query : List String) :
    DecidableRel (rerankGE f query) := fun a b =>
  inferInstanceAs (Decidable (f query b.text ≤ f query a.text))

/-- Modelled from the spec: the Reranker Adapter result; `degraded` is
the "unreranked" flag for downstream logging (§4.4). -/
structure RerankResult where
  candidates : List CandidatePassage
  degraded : Bool

/-- Modelled from the spec: `rerank` (§4.4).  The cross-encoder scoring
capability is `some f` when reachable; `none` models the service being
unreachable or timing out, in which case the adapter fails soft:
candidates ordered by `denseScore` descending, flagged degraded. -/
def rerank (scorer : Option (List String → List String → ℚ)) (query : List String)
    (cands : List CandidatePassage) : RerankResult :=
  match scorer with
  | none => ⟨List.insertionSort denseGE cands, true⟩
  | some f => ⟨List.insertionSort (rerankGE f query) cands, false⟩

/-! ## Citation Gate and Context Assembler (modelled from the spec,
§4.5, §4.6 and §3) -/

/-- Modelled from the spec: a candidate as seen by the Citation Gate,
after reranking: it carries the authoritative `rerankScore` (§4.4,
§4.5). -/
structure RankedPassage where
  url : String
  text : List String
  rerankScore : ℚ
deriving DecidableEq, Repr

/-- Modelled from the spec: the Citation Gate's tunable constants
(§4.5). -/
structure GateConfig where
  absoluteFloor : ℚ
  minMargin : ℚ
  lexicalFallbackThreshold : ℚ
  perCandidateFloor : ℚ
  maxCitations : Nat

/-- Modelled from the spec: reason of a gate decision (§3). -/
inductive GateReason where
  | relScore
  | lexFallback
  | noCitations
deriving DecidableEq, Repr

/-- Modelled from the spec: a gate decision (§3). -/
structure GateDecision where
  showCitations : Bool
  qualifyingCount : Nat
  reason : GateReason
deriving DecidableEq, Repr

/-- Modelled from the spec: the relative-score gate fails when the top
rerank score is below the absolute floor AND its margin over the best
candidate from a different source document is below the minimum (§4.5
step 2).  With no candidate at all the gate fails; with no second
distinct source the margin condition does not hold. -/
def relativeGateFails (cands : List RankedPassage) (cfg : GateConfig) : Bool :=
  match argmaxBy (fun c => c.rerankScore) cands with
  | none => true
  | some top =>
      let marginBelow :=
        match argmaxBy (fun c => c.rerankScore)
            (cands.filter (fun c => !(c.url == top.url))) with
        | none => false
        | some other => decide (top.rerankScore - other.rerankScore < cfg.minMargin)
      decide (top.rerankScore < cfg.absoluteFloor) && marginBelow

/-- Modelled from the spec: the lexical fallback holds when at least one
candidate's lexical token overlap with the original (not reformulated)
query exceeds the fallback threshold (§4.5 step 3). -/
def lexFallbackHolds (cands : List RankedPassage) (origQuery : List String)
    (cfg : GateConfig) : Bool :=
  cands.any (fun c =>
    decide (cfg.lexicalFallbackThreshold < tokenOverlap c.text origQuery))

/-- Modelled from the spec: the passages qualifying for citations — those
meeting the per-candidate relevance floor, capped at the maximum
citation count, in final rank order (§4.5 step 4). -/
def qualifyingPassages (cands : List RankedPassage) (cfg : GateConfig) :
    List RankedPassage :=
  (cands.filter (fun c => decide (cfg.perCandidateFloor ≤ c.rerankScore))).take
    cfg.maxCitations

/-- Modelled from the spec: the Citation Gate decision (§4.5): suppress
citations when the relative-score gate fails, unless the lexical
fallback rescues them. -/
def gateDecision (cands : List RankedPassage) (origQuery : List String)
    (cfg : GateConfig) : GateDecision :=
  if relativeGateFails cands cfg then
    if lexFallbackHolds cands origQuery cfg then
      ⟨true, (qualifyingPassages cands cfg).length, GateReason.lexFallback⟩
    else
      ⟨false, 0, GateReason.noCitations⟩
  else
    ⟨true, (qualifyingPassages cands cfg).length, GateReason.relScore⟩

/-- Modelled from the spec: a Citation produced by the engine (§3);
`ordinal` is the 0-based position in the final context. -/
structure Citation where
  docId : String
  ordinal : Nat
  text : Option (List String)
deriving DecidableEq, Repr

/-- Modelled from the spec: the Context Assembler turns the gated
passages, in final-context (rank) order, into Citations with ordinals
0..N-1 (§4.5 step 4, §4.6). -/
def makeCitations (gated : List RankedPassage) : List Citation :=
  gated.enum.map (fun p => ⟨p.2.url, p.1, some p.2.text⟩)

/-- From `ResponseDisplay.tsx` (frontend): the citation badge of the
`idx`-th citation of a bot message is labelled "Source idx+1"; this is
the numeric part of that label. -/
def sourceLabelNum (idx : Nat) : Nat := idx + 1

/-! ## Frontend citation sanitization
(from `frontend/src/components/Home.tsx`, lines 225-237) -/

/-- A JavaScript value, as far as the citation sanitization code inspects
it.  JS numbers are modelled as `Option ℚ` with `none` for NaN;
string-to-number coercion is modelled for (trimmed) integer literals,
with every other non-empty string coercing to NaN. -/
inductive JsVal where
  | undef
  | jsNull
  | jsBool (b : Bool)
  | jsNum (q : Option ℚ)
  | jsStr (s : String)
deriving DecidableEq, Repr

/-- JS `Number(string)`: empty/whitespace-only strings give 0, integer
literals their value, anything else NaN. -/
def parseJsNumber (s : String) : Option ℚ :=
  if s.trim = "" then some 0
  else
    match s.trim.toInt? with
    | some n => some (n : ℚ)
    | none => none

/-- JS `Number(x)` coercion (`none` = NaN). -/
def jsToNumber : JsVal → Option ℚ
  | JsVal.undef => none
  | JsVal.jsNull => some 0
  | JsVal.jsBool b => some (if b then 1 else 0)
  | JsVal.jsNum q => q
  | JsVal.jsStr s => parseJsNumber s

/-- From Home.tsx line 231, `Number(c.ord) || 0`: NaN and 0 (the falsy
numbers) are replaced by the literal 0; every other number is kept. -/
def numberOrZero (v : JsVal) : ℚ :=
  match jsToNumber v with
  | none => 0
  | some q => if q = 0 then 0 else q

/-- From Home.tsx lines 232-234, `typeof v === 'string' ? v : null`. -/
def asString : JsVal → Option String
  | JsVal.jsStr s => some s
  | _ => none

/-- A raw citation object of a stream frame, fields as sent by the
backend (`doc_id`, `ord`, `title`, `chunk_id`, `text`). -/
structure RawCitation where
  doc_id : JsVal
  ord : JsVal
  title : JsVal
  chunk_id : JsVal
  text : JsVal
deriving DecidableEq, Repr

/-- One element of a frame's `citations` array: `nullish` stands for any
falsy element (rejected by the `!c` check in the code). -/
inductive RawEntry where
  | nullish
  | obj (c : RawCitation)
deriving DecidableEq, Repr

/-- The frontend `Citation` shape (ResponseDisplay.tsx interface
`Citation`, populated in Home.tsx lines 229-235). -/
structure ClientCitation where
  docId : String
  ord : ℚ
  title : Option String
  chunkId : Option String
  text : Option String
deriving DecidableEq, Repr

/-- From Home.tsx lines 226-236: map one raw entry of the `citations`
array to a `Citation`, or drop it when it is falsy or its `doc_id` is
not a string. -/
def sanitizeCitation : RawEntry → Option ClientCitation
  | RawEntry.nullish => none
  | RawEntry.obj c =>
      match c.doc_id with
      | JsVal.jsStr s =>
          some ⟨s, numberOrZero c.ord, asString c.title, asString c.chunk_id,
            asString c.text⟩
      | _ => none

/-- From Home.tsx lines 225-237: the `.map(...).filter(Boolean)` over the
frame's `citations` array. -/
def mapCitations (entries : List RawEntry) : List ClientCitation :=
  entries.filterMap sanitizeCitation

/-! ## Frontend chat stream handling
(from `frontend/src/components/Home.tsx`, lines 183-289) -/

/-- One parsed SSE frame of the chat stream.  `malformed` stands for a
frame skipped by the handler (not `data:`-prefixed, empty, or failing
`JSON.parse`); a parsed payload carries the fields the handler reads,
with `error`/`done` as their truthiness. -/
inductive Frame where
  | malformed
  | payload (token : Option String) (citations : Option (List RawEntry))
      (error : Bool) (done : Bool)
deriving DecidableEq, Repr

/-- The state the stream handler mutates: the local `answer` and
`citations` accumulators and the last bot message's `text` and
`citations`, plus the `hadError` flag. -/
structure ChatState where
  answer : String
  citations : List ClientCitation
  botText : String
  botCitations : List ClientCitation
  hadError : Bool
deriving DecidableEq, Repr

/-- From Home.tsx line 258: the fixed error message. -/
def errorText : String := "The assistant could not generate a response."

/-- The state at the start of a stream (Home.tsx lines 185-191). -/
def initialChatState : ChatState := ⟨"", [], "", [], false⟩

/-- From Home.tsx lines 213-270: process one parsed frame; the returned
Bool is whether the stream loop keeps running (`live` and no `break`). -/
def stepFrame (s : ChatState) : Frame → ChatState × Bool
  | Frame.malformed => (s, true)
  | Frame.payload tok cits err dn =>
      let s1 :=
        match tok with
        | some t => { s with answer := s.answer ++ t, botText := s.answer ++ t }
        | none => s
      let s2 :=
        match cits with
        | some raw =>
            let cs := mapCitations raw
            { s1 with citations := cs, botCitations := cs }
        | none => s1
      if err then
        ({ s2 with
            citations := []
            hadError := true
            botText := errorText
            botCitations := [] }, false)
      else if dn then (s2, false)
      else (s2, true)

/-- The frame-processing loop (Home.tsx lines 193-272). -/
def runFrames (s : ChatState) : List Frame → ChatState
  | [] => s
  | f :: fs =>
      match stepFrame s f with
      | (s2, true) => runFrames s2 fs
      | (s2, false) => s2

/-- From Home.tsx lines 280-289: after the loop, unless an error frame
was seen, the last bot message is set to the accumulated answer and
citations. -/
def finalizeChat (s : ChatState) : ChatState :=
  if s.hadError then s
  else { s with botText := s.answer, botCitations := s.citations }

/-- The whole stream handler for a list of received frames. -/
def handleStream (frames : List Frame) : ChatState :=
  finalizeChat (runFrames initialChatState frames)

/-- A frame that neither stops the loop nor errors. -/
def nonTerminal : Frame → Bool
  | Frame.malformed => true
  | Frame.payload _ _ err dn => !err && !dn

/-! ## History Store theorems -/

theorem appendTurn_length_le (cap : Nat) (h : List Turn) (t : Turn)
    (hh : h.length ≤ cap) : (appendTurn cap h t).length ≤ cap := by
  unfold appendTurn
  by_cases hle : (h ++ [t]).length ≤ cap
  · simp only [List.length_append, List.length_singleton] at hle
    simp [hle]
  · simp only [List.length_append, List.length_singleton] at hle
    simp only [List.length_append, List.length_singleton, hle, if_false,
      List.length_drop]
    omega

theorem foldl_appendTurn_length_le (cap : Nat) :
    ∀ (ts : List Turn) (h : List Turn), h.length ≤ cap →
      (ts.foldl (appendTurn cap) h).length ≤ cap := by
  intro ts
  induction ts with
  | nil => intro h hh; simpa using hh
  | cons t ts ih =>
      intro h hh
      simpa using ih (appendTurn cap h t) (appendTurn_length_le cap h t hh)

/-- C3: for every session and every sequence of appends, the History
Store's length never exceeds the configured turn cap, and an append
performed when the store already holds exactly `cap` turns removes
exactly the oldest turn (FIFO) while all other turns are unchanged. -/
theorem historyStore_cap_fifo (cap : Nat) (hcap : 1 ≤ cap) :
    (∀ ts : List Turn, (ts.foldl (appendTurn cap) []).length ≤ cap) ∧
    (∀ (h : List Turn) (t : Turn), h.length = cap →
      appendTurn cap h t = h.drop 1 ++ [t]) := by
  constructor
  · intro ts
    exact foldl_appendTurn_length_le cap ts [] (by simp)
  · intro h t hlen
    unfold appendTurn
    have hnot : ¬ (h ++ [t]).length ≤ cap := by
      simp only [List.length_append, List.length_singleton, hlen]
      omega
    have hdrop : (h ++ [t]).length - cap = 1 := by
      simp only [List.length_append, List.length_singleton, hlen]
      omega
    simp only [hnot, if_false, hdrop]
    cases h with
    | nil => simp at hlen; omega
    | cons a h0 => simp

/-- Witness for C3 at the default cap 5. -/
theorem historyStore_cap_fifo_witness :
    (∀ ts : List Turn, (ts.foldl (appendTurn 5) []).length ≤ 5) ∧
    (∀ (h : List Turn) (t : Turn), h.length = 5 →
      appendTurn 5 h t = h.drop 1 ++ [t]) :=
  historyStore_cap_fifo 5 (by decide)

/-! ## Query Reformulator theorems -/

theorem extractHints_subset (cfg : ReformConfig) (lang : Lang) (prev : Turn)
    (rest : List Turn) (t : String) (ht : t ∈ extractHints cfg lang (prev :: rest)) :
    t ∈ prev.text := by
  unfold extractHints at ht
  have h1 := List.take_subset _ _ ht
  have h2 := List.mem_of_mem_filter h1
  exact List.mem_dedup.mp h2

/-- C5: a pronoun-only turn immediately after a same-language user turn
containing a concrete noun phrase (some non-stopword token), with a
non-empty history pool and no topic-switch reset, gets `usedHistory =
true` and a reformulated query containing at least one hint token from
that prior user turn. -/
theorem reformulator_pronoun_followup (cfg : ReformConfig) (history : List Turn)
    (lang : Lang) (current : List String) (prev : Turn) (rest : List Turn)
    (hpool : historyPool history lang = prev :: rest)
    (hpron : isPronounLike cfg lang current = true)
    (hnoswitch : cfg.topicSwitchThreshold ≤ tokenOverlap current prev.text)
    (hnoun : extractHints cfg lang (prev :: rest) ≠ []) :
    (reformulate cfg history lang current).usedHistory = true ∧
    ∃ tok ∈ (reformulate cfg history lang current).historyHintTerms,
      tok ∈ prev.text ∧ tok ∈ (reformulate cfg history lang current).text := by
  have hreset : decide (tokenOverlap current prev.text < cfg.topicSwitchThreshold) = false := by
    simp [not_lt.mpr hnoswitch]
  unfold reformulate
  simp only [hpool, List.head?, hreset, if_false, Bool.not_false, Bool.and_true,
    Bool.if_false_right]
  simp only [hpron, List.isEmpty_cons, Bool.not_false, Bool.true_and, if_true]
  refine ⟨rfl, ?_⟩
  obtain ⟨tok, htok⟩ := List.exists_mem_of_ne_nil _ hnoun
  exact ⟨tok, htok, extractHints_subset cfg lang prev rest tok htok,
    List.mem_append_right _ htok⟩

/-- Witness for C5: "it" after the user turn "license terms". -/
theorem reformulator_pronoun_followup_witness :
    (historyPool [⟨Role.user, ["license", "terms"], Lang.langA⟩] Lang.langA =
      ⟨Role.user, ["license", "terms"], Lang.langA⟩ :: []) ∧
    (isPronounLike ⟨3, fun _ => ["it"], [], 2, 0⟩ Lang.langA ["it"] = true) ∧
    ((⟨3, fun _ => ["it"], [], 2, 0⟩ : ReformConfig).topicSwitchThreshold ≤
      tokenOverlap ["it"] ["license", "terms"]) ∧
    (extractHints ⟨3, fun _ => ["it"], [], 2, 0⟩ Lang.langA
      (⟨Role.user, ["license", "terms"], Lang.langA⟩ :: []) ≠ []) ∧
    ((reformulate ⟨3, fun _ => ["it"], [], 2, 0⟩
        [⟨Role.user, ["license", "terms"], Lang.langA⟩] Lang.langA ["it"]).usedHistory = true ∧
      ∃ tok ∈ (reformulate ⟨3, fun _ => ["it"], [], 2, 0⟩
          [⟨Role.user, ["license", "terms"], Lang.langA⟩] Lang.langA ["it"]).historyHintTerms,
        tok ∈ (⟨Role.user, ["license", "terms"], Lang.langA⟩ : Turn).text ∧
        tok ∈ (reformulate ⟨3, fun _ => ["it"], [], 2, 0⟩
          [⟨Role.user, ["license", "terms"], Lang.langA⟩] Lang.langA ["it"]).text) := by
  refine ⟨by decide, by decide, ?_, by decide, ?_⟩
  · show (0 : ℚ) ≤ tokenOverlap ["it"] ["license", "terms"]
    simp [tokenOverlap]
  · exact reformulator_pronoun_followup ⟨3, fun _ => ["it"], [], 2, 0⟩
      [⟨Role.user, ["license", "terms"], Lang.langA⟩] Lang.langA ["it"]
      ⟨Role.user, ["license", "terms"], Lang.langA⟩ [] (by decide) (by decide)
      (by show (0 : ℚ) ≤ tokenOverlap ["it"] ["license", "terms"]; simp [tokenOverlap])
      (by decide)

/-- C6: a turn whose token-overlap ratio with the last same-language user
turn is strictly below the topic-switch threshold gets `resetApplied =
true` and a reformulated query without any history hint tokens,
regardless of pronoun-likeness; a ratio exactly at the threshold is not
a switch (`resetApplied = false`). -/
theorem reformulator_topic_switch (cfg : ReformConfig) (history : List Turn)
    (lang : Lang) (current : List String) (prev : Turn) (rest : List Turn)
    (hpool : historyPool history lang = prev :: rest) :
    (tokenOverlap current prev.text < cfg.topicSwitchThreshold →
      (reformulate cfg history lang current).resetApplied = true ∧
      (reformulate cfg history lang current).text = current ∧
      (reformulate cfg history lang current).historyHintTerms = []) ∧
    (tokenOverlap current prev.text = cfg.topicSwitchThreshold →
      (reformulate cfg history lang current).resetApplied = false) := by
  constructor
  · intro hlt
    have hreset : decide (tokenOverlap current prev.text < cfg.topicSwitchThreshold) = true := by
      simp [hlt]
    unfold reformulate
    simp [hpool, List.head?, hreset]
  · intro heq
    have hreset : decide (tokenOverlap current prev.text < cfg.topicSwitchThreshold) = false := by
      simp [heq]
    unfold reformulate
    simp only [hpool, List.head?, hreset]
    split <;> split <;> rfl

/-- Witness for C6 after the user turn "license terms". -/
theorem reformulator_topic_switch_witness :
    (tokenOverlap ["printer"] ["license", "terms"] <
        (⟨3, fun _ => ["it"], [], 2, 1/2⟩ : ReformConfig).topicSwitchThreshold →
      (reformulate ⟨3, fun _ => ["it"], [], 2, 1/2⟩
        [⟨Role.user, ["license", "terms"], Lang.langA⟩] Lang.langA ["printer"]).resetApplied = true ∧
      (reformulate ⟨3, fun _ => ["it"], [], 2, 1/2⟩
        [⟨Role.user, ["license", "terms"], Lang.langA⟩] Lang.langA ["printer"]).text = ["printer"] ∧
      (reformulate ⟨3, fun _ => ["it"], [], 2, 1/2⟩
        [⟨Role.user, ["license", "terms"], Lang.langA⟩] Lang.langA
          ["printer"]).historyHintTerms = []) ∧
    (tokenOverlap ["printer"] ["license", "terms"] =
        (⟨3, fun _ => ["it"], [], 2, 1/2⟩ : ReformConfig).topicSwitchThreshold →
      (reformulate ⟨3, fun _ => ["it"], [], 2, 1/2⟩
        [⟨Role.user, ["license", "terms"], Lang.langA⟩] Lang.langA
          ["printer"]).resetApplied = false) :=
  reformulator_topic_switch ⟨3, fun _ => ["it"], [], 2, 1/2⟩
    [⟨Role.user, ["license", "terms"], Lang.langA⟩] Lang.langA ["printer"]
    ⟨Role.user, ["license", "terms"], Lang.langA⟩ [] (by decide)

/-! ## Candidate Retriever theorems -/

theorem argmaxBy_eq_none_iff {α : Type} (key : α → ℚ) (l : List α) :
    argmaxBy key l = none ↔ l = [] := by
  cases l with
  | nil => simp [argmaxBy]
  | cons a as =>
      simp only [argmaxBy]
      cases h : argmaxBy key as with
      | none => simp
      | some b =>
          simp only [h]
          split <;> simp

theorem argmaxBy_mem {α : Type} (key : α → ℚ) (l : List α) (a : α)
    (h : argmaxBy key l = some a) : a ∈ l := by
  induction l generalizing a with
  | nil => simp [argmaxBy] at h
  | cons x xs ih =>
      cases hx : argmaxBy key xs with
      | none =>
          simp only [argmaxBy, hx, Option.some.injEq] at h
          subst h
          exact List.mem_cons_self x xs
      | some b =>
          simp only [argmaxBy, hx] at h
          split at h
          · simp only [Option.some.injEq] at h
            subst h
            exact List.mem_cons_of_mem x (ih b hx)
          · simp only [Option.some.injEq] at h
            subst h
            exact List.mem_cons_self x xs

theorem argmaxBy_le {α : Type} (key : α → ℚ) (l : List α) (a : α)
    (h : argmaxBy key l = some a) : ∀ b ∈ l, key b ≤ key a := by
  induction l generalizing a with
  | nil => simp [argmaxBy] at h
  | cons x xs ih =>
      intro b hb
      cases hx : argmaxBy key xs with
      | none =>
          have hxs : xs = [] := (argmaxBy_eq_none_iff key xs).mp hx
          subst hxs
          simp only [argmaxBy, Option.some.injEq] at h
          subst h
          rcases List.mem_cons.mp hb with h1 | h1
          · subst h1; exact le_refl _
          · simp at h1
      | some m =>
          simp only [argmaxBy, hx] at h
          split at h
          next hcond =>
            simp only [Option.some.injEq] at h
            subst h
            rcases List.mem_cons.mp hb with h1 | h1
            · subst h1; exact le_of_lt hcond
            · exact ih m hx b h1
          next hcond =>
            simp only [Option.some.injEq] at h
            subst h
            rcases List.mem_cons.mp hb with h1 | h1
            · subst h1; exact le_refl _
            · exact le_trans (ih m hx b h1) (not_lt.mp hcond)

theorem mergeAt_url (u : String) (dense lex : List Retrieved)
    (c : CandidatePassage) (h : mergeAt u dense lex = some c) : c.url = u := by
  unfold mergeAt at h
  split at h <;> first | (simp only [Option.some.injEq] at h; subst h; rfl) | simp at h

theorem mergeAt_isSome_iff (u : String) (dense lex : List Retrieved) :
    (mergeAt u dense lex).isSome = true ↔
      u ∈ (dense ++ lex).map (fun r => r.url) := by
  constructor
  · intro h
    unfold mergeAt at h
    split at h <;> rename_i hd hl
    · have hin := List.mem_filter.mp (argmaxBy_mem _ _ _ hd)
      exact List.mem_map.mpr ⟨_, List.mem_append_left _ hin.1, by simpa using hin.2⟩
    · have hin := List.mem_filter.mp (argmaxBy_mem _ _ _ hd)
      exact List.mem_map.mpr ⟨_, List.mem_append_left _ hin.1, by simpa using hin.2⟩
    · have hin := List.mem_filter.mp (argmaxBy_mem _ _ _ hl)
      exact List.mem_map.mpr ⟨_, List.mem_append_right _ hin.1, by simpa using hin.2⟩
    · simp at h
  · intro h
    obtain ⟨r, hr, hru⟩ := List.mem_map.mp h
    unfold mergeAt
    rcases List.mem_append.mp hr with hrd | hrl
    · have hne : dense.filter (fun r => r.url == u) ≠ [] := by
        intro hnil
        have := (List.filter_eq_nil_iff.mp hnil) r hrd
        simp [hru] at this
      cases hd : argmaxBy (fun r => r.score) (dense.filter (fun r => r.url == u)) with
      | none => exact absurd ((argmaxBy_eq_none_iff _ _).mp hd) hne
      | some d =>
          cases hl : argmaxBy (fun r => r.score) (lex.filter (fun r => r.url == u)) <;>
            simp
    · have hne : lex.filter (fun r => r.url == u) ≠ [] := by
        intro hnil
        have := (List.filter_eq_nil_iff.mp hnil) r hrl
        simp [hru] at this
      cases hl : argmaxBy (fun r => r.score) (lex.filter (fun r => r.url == u)) with
      | none => exact absurd ((argmaxBy_eq_none_iff _ _).mp hl) hne
      | some e =>
          cases hd : argmaxBy (fun r => r.score) (dense.filter (fun r => r.url == u)) <;>
            simp

theorem countP_filterMap_mergeAt (dense lex : List Retrieved) (u : String) :
    ∀ us : List String, us.Nodup →
      ((us.filterMap (fun v => mergeAt v dense lex)).countP
          (fun c => c.url == u)) =
        if u ∈ us ∧ (mergeAt u dense lex).isSome then 1 else 0 := by
  intro us
  induction us with
  | nil => intro _; simp
  | cons v vs ih =>
      intro hnd
      have hvnotin : v ∉ vs := (List.nodup_cons.mp hnd).1
      have hvs := (List.nodup_cons.mp hnd).2
      rw [List.filterMap_cons]
      cases hv : mergeAt v dense lex with
      | none =>
          rw [ih hvs]
          have hnone : (mergeAt u dense lex).isSome = true → u ≠ v := by
            intro hs hequ
            subst hequ
            rw [hv] at hs
            simp at hs
          have hiff : (u ∈ v :: vs ∧ (mergeAt u dense lex).isSome = true) ↔
              (u ∈ vs ∧ (mergeAt u dense lex).isSome = true) := by
            constructor
            · rintro ⟨h1, h2⟩
              rcases List.mem_cons.mp h1 with h3 | h3
              · exact absurd h3 (hnone h2)
              · exact ⟨h3, h2⟩
            · rintro ⟨h1, h2⟩
              exact ⟨List.mem_cons_of_mem v h1, h2⟩
          rw [if_congr hiff rfl rfl]
      | some c =>
          have hcu : c.url = v := mergeAt_url v dense lex c hv
          rw [List.countP_cons, ih hvs]
          by_cases huv : u = v
          · subst huv
            have hnot : ¬ (u ∈ vs ∧ (mergeAt u dense lex).isSome = true) :=
              fun hcon => hvnotin hcon.1
            have hyes : (u ∈ u :: vs ∧ (mergeAt u dense lex).isSome = true) :=
              ⟨List.mem_cons_self u vs, by simp [hv]⟩
            have heqb : (c.url == u) = true := by simp [hcu]
            rw [if_neg hnot, if_pos hyes, heqb]
            simp
          · have hne : (c.url == u) = false := by
              rw [hcu]
              simp only [beq_eq_false_iff_ne, ne_eq]
              exact fun h => huv h.symm
            have hiff : (u ∈ v :: vs ∧ (mergeAt u dense lex).isSome = true) ↔
                (u ∈ vs ∧ (mergeAt u dense lex).isSome = true) := by
              constructor
              · rintro ⟨h1, h2⟩
                rcases List.mem_cons.mp h1 with h3 | h3
                · exact absurd h3 huv
                · exact ⟨h3, h2⟩
              · rintro ⟨h1, h2⟩
                exact ⟨List.mem_cons_of_mem v h1, h2⟩
            rw [hne, if_congr hiff rfl rfl]
            simp

/-- C4: the merged candidate list has exactly one entry per distinct url
occurring in either sub-retriever result; a url occurring in both lists
yields an entry carrying both scores (the surviving dense entry being
one of highest `denseScore`), and a url occurring in only one list
leaves the missing score unset (`none`), not zero. -/
theorem mergeCandidates_per_url (dense lex : List Retrieved) (u : String) :
    ((mergeCandidates dense lex).countP (fun c => c.url == u) =
      if u ∈ (dense ++ lex).map (fun r => r.url) then 1 else 0) ∧
    ((∃ r ∈ dense, r.url = u) → (∃ r ∈ lex, r.url = u) →
      ∃ c ∈ mergeCandidates dense lex, c.url = u ∧
        (∃ d ∈ dense, d.url = u ∧ c.denseScore = some d.score ∧ c.text = d.text ∧
          ∀ d2 ∈ dense, d2.url = u → d2.score ≤ d.score) ∧
        (∃ e ∈ lex, e.url = u ∧ c.lexicalScore = some e.score)) ∧
    ((∃ r ∈ dense, r.url = u) → (∀ r ∈ lex, r.url ≠ u) →
      ∃ c ∈ mergeCandidates dense lex, c.url = u ∧
        c.denseScore.isSome ∧ c.lexicalScore = none) ∧
    ((∀ r ∈ dense, r.url ≠ u) → (∃ r ∈ lex, r.url = u) →
      ∃ c ∈ mergeCandidates dense lex, c.url = u ∧
        c.denseScore = none ∧ c.lexicalScore.isSome) := by
  have hmem_urls : ∀ w, w ∈ ((dense ++ lex).map (fun r => r.url)).dedup ↔
      w ∈ (dense ++ lex).map (fun r => r.url) := fun w => List.mem_dedup
  refine ⟨?_, ?_, ?_, ?_⟩
  · rw [mergeCandidates, countP_filterMap_mergeAt dense lex u _
      (List.nodup_dedup _)]
    by_cases hu : u ∈ (dense ++ lex).map (fun r => r.url)
    · have h1 : u ∈ ((dense ++ lex).map (fun r => r.url)).dedup ∧
          (mergeAt u dense lex).isSome = true :=
        ⟨(hmem_urls u).mpr hu, (mergeAt_isSome_iff u dense lex).mpr hu⟩
      rw [if_pos h1, if_pos hu]
    · have h2 : u ∉ ((dense ++ lex).map (fun r => r.url)).dedup := by
        rw [hmem_urls]
        exact hu
      rw [if_neg (fun hcon => h2 hcon.1), if_neg hu]
  · rintro ⟨rd, hrd, hrdu⟩ ⟨rl, hrl, hrlu⟩
    have hdne : dense.filter (fun r => r.url == u) ≠ [] := by
      intro hnil
      have := (List.filter_eq_nil_iff.mp hnil) rd hrd
      simp [hrdu] at this
    have hlne : lex.filter (fun r => r.url == u) ≠ [] := by
      intro hnil
      have := (List.filter_eq_nil_iff.mp hnil) rl hrl
      simp [hrlu] at this
    cases hd : argmaxBy (fun r => r.score) (dense.filter (fun r => r.url == u)) with
    | none => exact absurd ((argmaxBy_eq_none_iff _ _).mp hd) hdne
    | some d =>
        cases hl : argmaxBy (fun r => r.score) (lex.filter (fun r => r.url == u)) with
        | none => exact absurd ((argmaxBy_eq_none_iff _ _).mp hl) hlne
        | some e =>
            have hmerge : mergeAt u dense lex =
                some ⟨u, d.text, some d.score, some e.score⟩ := by
              unfold mergeAt
              rw [hd, hl]
            have humem : u ∈ (dense ++ lex).map (fun r => r.url) :=
              List.mem_map.mpr ⟨rd, List.mem_append_left _ hrd, hrdu⟩
            have hcmem : (⟨u, d.text, some d.score, some e.score⟩ : CandidatePassage) ∈
                mergeCandidates dense lex := by
              rw [mergeCandidates]
              exact List.mem_filterMap.mpr ⟨u, (hmem_urls u).mpr humem, hmerge⟩
            have hdmem := List.mem_filter.mp (argmaxBy_mem _ _ _ hd)
            have hemem := List.mem_filter.mp (argmaxBy_mem _ _ _ hl)
            refine ⟨_, hcmem, rfl, ⟨d, hdmem.1, by simpa using hdmem.2, rfl, rfl, ?_⟩,
              ⟨e, hemem.1, by simpa using hemem.2, rfl⟩⟩
            intro d2 hd2 hd2u
            exact argmaxBy_le _ _ _ hd d2
              (List.mem_filter.mpr ⟨hd2, by simp [hd2u]⟩)
  · rintro ⟨rd, hrd, hrdu⟩ hnol
    have hdne : dense.filter (fun r => r.url == u) ≠ [] := by
      intro hnil
      have := (List.filter_eq_nil_iff.mp hnil) rd hrd
      simp [hrdu] at this
    have hlnil : lex.filter (fun r => r.url == u) = [] := by
      apply List.filter_eq_nil_iff.mpr
      intro r hr
      simp [hnol r hr]
    cases hd : argmaxBy (fun r => r.score) (dense.filter (fun r => r.url == u)) with
    | none => exact absurd ((argmaxBy_eq_none_iff _ _).mp hd) hdne
    | some d =>
        have hl : argmaxBy (fun r => r.score) (lex.filter (fun r => r.url == u)) = none := by
          rw [hlnil]; rfl
        have hmerge : mergeAt u dense lex = some ⟨u, d.text, some d.score, none⟩ := by
          unfold mergeAt
          rw [hd, hl]
        have humem : u ∈ (dense ++ lex).map (fun r => r.url) :=
          List.mem_map.mpr ⟨rd, List.mem_append_left _ hrd, hrdu⟩
        refine ⟨⟨u, d.text, some d.score, none⟩, ?_, rfl, by simp, rfl⟩
        rw [mergeCandidates]
        exact List.mem_filterMap.mpr ⟨u, (hmem_urls u).mpr humem, hmerge⟩
  · rintro hnod ⟨rl, hrl, hrlu⟩
    have hlne : lex.filter (fun r => r.url == u) ≠ [] := by
      intro hnil
      have := (List.filter_eq_nil_iff.mp hnil) rl hrl
      simp [hrlu] at this
    have hdnil : dense.filter (fun r => r.url == u) = [] := by
      apply List.filter_eq_nil_iff.mpr
      intro r hr
      simp [hnod r hr]
    cases hl : argmaxBy (fun r => r.score) (lex.filter (fun r => r.url == u)) with
    | none => exact absurd ((argmaxBy_eq_none_iff _ _).mp hl) hlne
    | some e =>
        have hd : argmaxBy (fun r => r.score) (dense.filter (fun r => r.url == u)) = none := by
          rw [hdnil]; rfl
        have hmerge : mergeAt u dense lex = some ⟨u, e.text, none, some e.score⟩ := by
          unfold mergeAt
          rw [hd, hl]
        have humem : u ∈ (dense ++ lex).map (fun r => r.url) :=
          List.mem_map.mpr ⟨rl, List.mem_append_right _ hrl, hrlu⟩
        refine ⟨⟨u, e.text, none, some e.score⟩, ?_, rfl, rfl, by simp⟩
        rw [mergeCandidates]
        exact List.mem_filterMap.mpr ⟨u, (hmem_urls u).mpr humem, hmerge⟩

/-- C7: `retrieve` fails if and only if both sub-retrievers error; when
only the dense index errors it returns the lexical-only results instead
of failing; and the only error it ever surfaces is
`RetrievalUnavailable`. -/
theorem retrieve_unavailable_iff (d l : Except String (List Retrieved)) :
    ((∃ e, retrieve d l = Except.error e) ↔
      (∃ s1, d = Except.error s1) ∧ (∃ s2, l = Except.error s2)) ∧
    (∀ s1 ls, d = Except.error s1 → l = Except.ok ls →
      retrieve d l = Except.ok (mergeCandidates [] ls)) ∧
    (retrieve d l = Except.error RetrievalError.RetrievalUnavailable ∨
      ∃ cs, retrieve d l = Except.ok cs) := by
  cases d <;> cases l <;> simp [retrieve]
  exact ⟨RetrievalError.RetrievalUnavailable, trivial⟩

/-! ## Reranker Adapter theorems -/

/-- C8: when the scoring service is unreachable or times out, `rerank`
returns the input candidates ordered by `denseScore` descending, flags
the result as degraded, and still produces a result (the adapter is a
total function, so the turn completes). -/
theorem rerank_unreachable_fallback (query : List String)
    (cands : List CandidatePassage) :
    (rerank none query cands).degraded = true ∧
    (rerank none query cands).candidates.Perm cands ∧
    (rerank none query cands).candidates.Sorted denseGE := by
  refine ⟨rfl, ?_, ?_⟩
  · exact List.perm_insertionSort denseGE cands
  · exact List.sorted_insertionSort denseGE cands

/-! ## Citation Gate and Context Assembler theorems -/

/-- C1: when the top rerank score is below the absolute floor and its
margin over the best candidate from a different source is below the
minimum, the Citation Gate shows citations if and only if some
candidate's lexical token overlap with the original query exceeds the
fallback threshold. -/
theorem citationGate_lexical_fallback (cands : List RankedPassage)
    (origQuery : List String) (cfg : GateConfig) (top other : RankedPassage)
    (htop : argmaxBy (fun c => c.rerankScore) cands = some top)
    (hother : argmaxBy (fun c => c.rerankScore)
      (cands.filter (fun c => !(c.url == top.url))) = some other)
    (hfloor : top.rerankScore < cfg.absoluteFloor)
    (hmargin : top.rerankScore - other.rerankScore < cfg.minMargin) :
    (gateDecision cands origQuery cfg).showCitations = true ↔
      ∃ c ∈ cands, cfg.lexicalFallbackThreshold < tokenOverlap c.text origQuery := by
  have hfail : relativeGateFails cands cfg = true := by
    unfold relativeGateFails
    simp only [htop]
    simp only [hother]
    simp [hfloor, hmargin]
  unfold gateDecision
  rw [hfail]
  cases hlex : lexFallbackHolds cands origQuery cfg with
  | true =>
      simp only [if_true]
      constructor
      · intro _
        unfold lexFallbackHolds at hlex
        obtain ⟨c, hc, hdec⟩ := List.any_eq_true.mp hlex
        exact ⟨c, hc, of_decide_eq_true hdec⟩
      · intro _
        simp
  | false =>
      simp only [Bool.false_eq_true, if_false]
      constructor
      · intro hcon
        simp at hcon
      · rintro ⟨c, hc, hgt⟩
        unfold lexFallbackHolds at hlex
        have := List.any_eq_false.mp hlex c hc
        exact absurd (decide_eq_true hgt) this

/-- Witness for C1: top score 1 below floor 2, margin 1 below minimum 2;
the gate decision reduces to the lexical fallback. -/
theorem citationGate_lexical_fallback_witness :
    (argmaxBy (fun c => c.rerankScore)
      [(⟨"u1", ["eduroam", "setup"], 1⟩ : RankedPassage), ⟨"u2", ["printer"], 0⟩] =
        some ⟨"u1", ["eduroam", "setup"], 1⟩) ∧
    (argmaxBy (fun c => c.rerankScore)
      (([(⟨"u1", ["eduroam", "setup"], 1⟩ : RankedPassage),
          ⟨"u2", ["printer"], 0⟩]).filter
        (fun c => !(c.url == (⟨"u1", ["eduroam", "setup"], 1⟩ : RankedPassage).url))) =
        some ⟨"u2", ["printer"], 0⟩) ∧
    ((⟨"u1", ["eduroam", "setup"], 1⟩ : RankedPassage).rerankScore <
      (⟨2, 2, 1/2, 0, 3⟩ : GateConfig).absoluteFloor) ∧
    ((⟨"u1", ["eduroam", "setup"], 1⟩ : RankedPassage).rerankScore -
        (⟨"u2", ["printer"], 0⟩ : RankedPassage).rerankScore <
      (⟨2, 2, 1/2, 0, 3⟩ : GateConfig).minMargin) ∧
    ((gateDecision
        [(⟨"u1", ["eduroam", "setup"], 1⟩ : RankedPassage), ⟨"u2", ["printer"], 0⟩]
        ["eduroam", "setup"] ⟨2, 2, 1/2, 0, 3⟩).showCitations = true ↔
      ∃ c ∈ [(⟨"u1", ["eduroam", "setup"], 1⟩ : RankedPassage), ⟨"u2", ["printer"], 0⟩],
        (⟨2, 2, 1/2, 0, 3⟩ : GateConfig).lexicalFallbackThreshold <
          tokenOverlap c.text ["eduroam", "setup"]) := by
  refine ⟨by decide, by decide, by norm_num, by norm_num, ?_⟩
  exact citationGate_lexical_fallback
    [⟨"u1", ["eduroam", "setup"], 1⟩, ⟨"u2", ["printer"], 0⟩]
    ["eduroam", "setup"] ⟨2, 2, 1/2, 0, 3⟩
    ⟨"u1", ["eduroam", "setup"], 1⟩ ⟨"u2", ["printer"], 0⟩
    (by decide) (by decide) (by norm_num) (by norm_num)

/-- C2: whenever the Gate Decision shows citations, the produced Citation
list has exactly `qualifyingCount` entries whose ordinals are exactly
0..N-1 in final-context (rank) order, and the client's "Source i+1"
label for the i-th citation agrees with that citation's ordinal. -/
theorem citations_ordinals (cands : List RankedPassage) (origQuery : List String)
    (cfg : GateConfig)
    (hshow : (gateDecision cands origQuery cfg).showCitations = true) :
    (makeCitations (qualifyingPassages cands cfg)).length =
      (gateDecision cands origQuery cfg).qualifyingCount ∧
    (∀ i (h : i < (makeCitations (qualifyingPassages cands cfg)).length),
      ((makeCitations (qualifyingPassages cands cfg)).get ⟨i, h⟩).ordinal = i ∧
      sourceLabelNum i =
        ((makeCitations (qualifyingPassages cands cfg)).get ⟨i, h⟩).ordinal + 1) := by
  constructor
  · have hlen : (makeCitations (qualifyingPassages cands cfg)).length =
        (qualifyingPassages cands cfg).length := by
      simp [makeCitations, List.enum_length]
    rw [hlen]
    unfold gateDecision at hshow ⊢
    rcases Bool.eq_false_or_eq_true (relativeGateFails cands cfg) with hrel | hrel
    · rw [hrel] at hshow ⊢
      rcases Bool.eq_false_or_eq_true (lexFallbackHolds cands origQuery cfg) with hlex | hlex
      · rw [hlex] at hshow ⊢
        simp
      · rw [hlex] at hshow
        simp at hshow
    · rw [hrel] at hshow ⊢
      simp
  · intro i h
    have hord : ((makeCitations (qualifyingPassages cands cfg)).get ⟨i, h⟩).ordinal = i := by
      rw [List.get_eq_getElem]
      simp [makeCitations]
    exact ⟨hord, by rw [hord]; rfl⟩

/-- Witness for C2: a single high-scoring candidate passes the relative
gate, so citations are shown. -/
theorem citations_ordinals_witness :
    (makeCitations (qualifyingPassages [(⟨"u1", ["eduroam"], 3⟩ : RankedPassage)]
        ⟨2, 2, 1, 0, 3⟩)).length =
      (gateDecision [(⟨"u1", ["eduroam"], 3⟩ : RankedPassage)] ["eduroam"]
        ⟨2, 2, 1, 0, 3⟩).qualifyingCount ∧
    (∀ i (h : i < (makeCitations (qualifyingPassages
        [(⟨"u1", ["eduroam"], 3⟩ : RankedPassage)] ⟨2, 2, 1, 0, 3⟩)).length),
      ((makeCitations (qualifyingPassages [(⟨"u1", ["eduroam"], 3⟩ : RankedPassage)]
          ⟨2, 2, 1, 0, 3⟩)).get ⟨i, h⟩).ordinal = i ∧
      sourceLabelNum i =
        ((makeCitations (qualifyingPassages [(⟨"u1", ["eduroam"], 3⟩ : RankedPassage)]
            ⟨2, 2, 1, 0, 3⟩)).get ⟨i, h⟩).ordinal + 1) :=
  citations_ordinals [⟨"u1", ["eduroam"], 3⟩] ["eduroam"] ⟨2, 2, 1, 0, 3⟩ (by decide)

/-! ## Frontend chat stream theorems -/

theorem stepFrame_error (s : ChatState) (tok : Option String)
    (cits : Option (List RawEntry)) (dn : Bool) :
    (stepFrame s (Frame.payload tok cits true dn)).2 = false ∧
    (stepFrame s (Frame.payload tok cits true dn)).1.botText = errorText ∧
    (stepFrame s (Frame.payload tok cits true dn)).1.botCitations = [] ∧
    (stepFrame s (Frame.payload tok cits true dn)).1.hadError = true := by
  cases tok <;> cases cits <;> simp [stepFrame]

theorem runFrames_cons_continue (s : ChatState) (f : Frame) (fs : List Frame)
    (h : nonTerminal f = true) :
    runFrames s (f :: fs) = runFrames (stepFrame s f).1 fs := by
  cases f with
  | malformed => simp [runFrames, stepFrame]
  | payload t c e d =>
      simp only [nonTerminal, Bool.and_eq_true, Bool.not_eq_true'] at h
      obtain ⟨he, hd⟩ := h
      subst he
      subst hd
      have h2 : (stepFrame s (Frame.payload t c false false)).2 = true := by
        cases t <;> cases c <;> simp [stepFrame]
      cases hst : stepFrame s (Frame.payload t c false false) with
      | mk s2 b =>
          rw [hst] at h2
          simp only at h2
          subst h2
          simp [runFrames, hst]

theorem runFrames_error_run (tok : Option String) (cits : Option (List RawEntry))
    (dn : Bool) (post : List Frame) :
    ∀ (pre : List Frame) (s : ChatState), (∀ f ∈ pre, nonTerminal f = true) →
      runFrames s (pre ++ Frame.payload tok cits true dn :: post) =
        runFrames s (pre ++ [Frame.payload tok cits true dn]) ∧
      (runFrames s (pre ++ [Frame.payload tok cits true dn])).botText = errorText ∧
      (runFrames s (pre ++ [Frame.payload tok cits true dn])).botCitations = [] ∧
      (runFrames s (pre ++ [Frame.payload tok cits true dn])).hadError = true := by
  intro pre
  induction pre with
  | nil =>
      intro s _
      have herr := stepFrame_error s tok cits dn
      simp only [List.nil_append]
      cases hst : stepFrame s (Frame.payload tok cits true dn) with
      | mk s2 b =>
          rw [hst] at herr
          obtain ⟨hb, ht, hc, he⟩ := herr
          simp only at hb ht hc he
          subst hb
          refine ⟨?_, ?_, ?_, ?_⟩
          · show runFrames s (Frame.payload tok cits true dn :: post) =
              runFrames s [Frame.payload tok cits true dn]
            simp [runFrames, hst]
          · simp [runFrames, hst, ht]
          · simp [runFrames, hst, hc]
          · simp [runFrames, hst, he]
  | cons f fs ih =>
      intro s hpre
      have hf := hpre f (List.mem_cons_self f fs)
      have hrest : ∀ g ∈ fs, nonTerminal g = true :=
        fun g hg => hpre g (List.mem_cons_of_mem f hg)
      simp only [List.cons_append]
      rw [runFrames_cons_continue s f (fs ++ Frame.payload tok cits true dn :: post) hf,
        runFrames_cons_continue s f (fs ++ [Frame.payload tok cits true dn]) hf]
      exact ih (stepFrame s f).1 hrest

/-- C9: when the stream handler reaches a parsed frame with a truthy
`error` field (every frame before it being skipped or non-terminal),
processing stops at that frame — later frames change nothing — and the
last bot message's text becomes the fixed error string with an empty
citations list, discarding citations received in earlier frames. -/
theorem streamError_discards_citations (pre post : List Frame) (tok : Option String)
    (cits : Option (List RawEntry)) (dn : Bool)
    (hpre : ∀ f ∈ pre, nonTerminal f = true) :
    handleStream (pre ++ Frame.payload tok cits true dn :: post) =
      handleStream (pre ++ [Frame.payload tok cits true dn]) ∧
    (handleStream (pre ++ Frame.payload tok cits true dn :: post)).botText = errorText ∧
    (handleStream (pre ++ Frame.payload tok cits true dn :: post)).botCitations = [] := by
  obtain ⟨hrun, ht, hc, he⟩ :=
    runFrames_error_run tok cits dn post pre initialChatState hpre
  have hfin : finalizeChat
      (runFrames initialChatState (pre ++ [Frame.payload tok cits true dn])) =
      runFrames initialChatState (pre ++ [Frame.payload tok cits true dn]) := by
    unfold finalizeChat
    rw [he]
    simp
  unfold handleStream
  rw [hrun, hfin]
  exact ⟨rfl, ht, hc⟩

/-- Witness for C9: a token frame and a citations frame precede the error
frame; the citations are discarded and the text replaced. -/
theorem streamError_discards_citations_witness :
    handleStream
        ([Frame.payload (some "Hi") (some [RawEntry.obj
            ⟨JsVal.jsStr "d1", JsVal.jsNum (some 0), JsVal.undef, JsVal.undef,
              JsVal.undef⟩]) false false] ++
          Frame.payload none none true false ::
            [Frame.payload (some "ignored") none false false]) =
      handleStream
        ([Frame.payload (some "Hi") (some [RawEntry.obj
            ⟨JsVal.jsStr "d1", JsVal.jsNum (some 0), JsVal.undef, JsVal.undef,
              JsVal.undef⟩]) false false] ++
          [Frame.payload none none true false]) ∧
    (handleStream
        ([Frame.payload (some "Hi") (some [RawEntry.obj
            ⟨JsVal.jsStr "d1", JsVal.jsNum (some 0), JsVal.undef, JsVal.undef,
              JsVal.undef⟩]) false false] ++
          Frame.payload none none true false ::
            [Frame.payload (some "ignored") none false false])).botText = errorText ∧
    (handleStream
        ([Frame.payload (some "Hi") (some [RawEntry.obj
            ⟨JsVal.jsStr "d1", JsVal.jsNum (some 0), JsVal.undef, JsVal.undef,
              JsVal.undef⟩]) false false] ++
          Frame.payload none none true false ::
            [Frame.payload (some "ignored") none false false])).botCitations = [] :=
  streamError_discards_citations
    [Frame.payload (some "Hi") (some [RawEntry.obj
      ⟨JsVal.jsStr "d1", JsVal.jsNum (some 0), JsVal.undef, JsVal.undef,
        JsVal.undef⟩]) false false]
    [Frame.payload (some "ignored") none false false]
    none none false (by decide)

/-- C10: every citation the frontend stores has a string `docId` (raw
entries whose `doc_id` is not a string are dropped) and a numeric `ord`
that is 0 whenever the raw `ord` is missing, non-numeric (coerces to
NaN) or coerces to 0, and otherwise is the coerced number; `title`,
`chunkId` and `text` are null unless the raw fields are strings. -/
theorem citation_sanitization (entries : List RawEntry) (c : RawCitation)
    (v : JsVal) :
    ((∀ s, c.doc_id ≠ JsVal.jsStr s) → sanitizeCitation (RawEntry.obj c) = none) ∧
    (∀ s, c.doc_id = JsVal.jsStr s →
      sanitizeCitation (RawEntry.obj c) =
        some ⟨s, numberOrZero c.ord, asString c.title, asString c.chunk_id,
          asString c.text⟩) ∧
    ((jsToNumber c.ord = none ∨ jsToNumber c.ord = some 0) →
      numberOrZero c.ord = 0) ∧
    (∀ q, jsToNumber c.ord = some q → q ≠ 0 → numberOrZero c.ord = q) ∧
    (asString v = none ↔ ∀ s, v ≠ JsVal.jsStr s) ∧
    (∀ cit ∈ mapCitations entries, ∃ e ∈ entries,
      sanitizeCitation e = some cit ∧
      ∃ rc, e = RawEntry.obj rc ∧ rc.doc_id = JsVal.jsStr cit.docId) := by
  refine ⟨?_, ?_, ?_, ?_, ?_, ?_⟩
  · intro h
    cases hdoc : c.doc_id with
    | jsStr s => exact absurd hdoc (h s)
    | undef => simp [sanitizeCitation, hdoc]
    | jsNull => simp [sanitizeCitation, hdoc]
    | jsBool b => simp [sanitizeCitation, hdoc]
    | jsNum q => simp [sanitizeCitation, hdoc]
  · intro s hs
    simp [sanitizeCitation, hs]
  · intro h
    unfold numberOrZero
    rcases h with h | h
    · rw [h]
    · rw [h]
      simp
  · intro q hq hne
    unfold numberOrZero
    rw [hq]
    simp [hne]
  · cases v <;> simp [asString]
  · intro cit hcit
    obtain ⟨e, he, hse⟩ := List.mem_filterMap.mp hcit
    refine ⟨e, he, hse, ?_⟩
    cases e with
    | nullish => simp [sanitizeCitation] at hse
    | obj rc =>
        refine ⟨rc, rfl, ?_⟩
        cases hdoc : rc.doc_id with
        | jsStr s =>
            simp only [sanitizeCitation, hdoc, Option.some.injEq] at hse
            rw [← hse]
        | undef => rw [sanitizeCitation, hdoc] at hse; simp at hse
        | jsNull => rw [sanitizeCitation, hdoc] at hse; simp at hse
        | jsBool b => rw [sanitizeCitation, hdoc] at hse; simp at hse
        | jsNum q => rw [sanitizeCitation, hdoc] at hse; simp at hse

end RagUrz
